import Mathlib

/-!
Shallow embedding of the core data model and pure logic of the `prek`
git-hook orchestrator (crates/prek/src/config.rs, hook.rs, workspace.rs),
together with theorems settling the frozen specification claims.

Rust hash sets (`FxHashSet`) are modelled as `Finset`; hash maps
(`FxHashMap`) as association lists whose lookup finds the first matching
key, so that `extend` (later writer wins) is modelled by prepending the
overriding entries.  Paths are modelled as strings, or as lists of
components where the code compares them component-wise.
-/

namespace Prek

/-- Language enum from config.rs (`pub enum Language`). -/
inductive Language where
  | conda
  | coursier
  | dart
  | docker
  | dockerImage
  | dotnet
  | fail
  | golang
  | haskell
  | lua
  | node
  | perl
  | python
  | r
  | ruby
  | rust
  | swift
  | pygrep
  | script
  | system
deriving DecidableEq

/-- Stage enum from config.rs (`pub(crate) enum Stage`), 11 variants. -/
inductive Stage where
  | manual
  | commitMsg
  | postCheckout
  | postCommit
  | postMerge
  | postRewrite
  | preCommit
  | preMergeCommit
  | prePush
  | preRebase
  | prepareCommitMsg
deriving DecidableEq, Fintype

/-- Mirror of clap's `Stage::value_variants()`: the list of all 11 variants. -/
def Stage.valueVariants : List Stage :=
  [.manual, .commitMsg, .postCheckout, .postCommit, .postMerge, .postRewrite,
   .preCommit, .preMergeCommit, .prePush, .preRebase, .prepareCommitMsg]

/-- Common hook options (config.rs `struct HookOptions`).  Regexes
(`SerdeRegex`) are modelled by their pattern strings; the `_unused_keys`
catch-all (never read by the logic verified here) is omitted. -/
structure HookOptions where
  alias_ : Option String := none
  files : Option String := none
  exclude : Option String := none
  types : Option (List String) := none
  types_or : Option (List String) := none
  exclude_types : Option (List String) := none
  additional_dependencies : Option (List String) := none
  args : Option (List String) := none
  env : Option (List (String × String)) := none
  always_run : Option Bool := none
  fail_fast : Option Bool := none
  pass_filenames : Option Bool := none
  description : Option String := none
  language_version : Option String := none
  log_file : Option String := none
  require_serial : Option Bool := none
  priority : Option Nat := none
  stages : Option (List Stage) := none
  verbose : Option Bool := none
  minimum_prek_version : Option String := none

/-- Model of `FxHashMap::extend(self, other)`: every entry of `other` is
inserted into `self`, overwriting on key collision.  With first-match
association-list lookup, placing the entries of `other` in front realizes
exactly that observable behaviour. -/
def mapExtend (self other : List (String × String)) : List (String × String) :=
  other ++ self

/-- HookOptions::update (config.rs): every field except `env` is wholly
replaced by the other's value when that value is present; `env` is merged
entry-wise with the other side winning. -/
def HookOptions.update (self other : HookOptions) : HookOptions :=
  { alias_ := if other.alias_.isSome then other.alias_ else self.alias_
    files := if other.files.isSome then other.files else self.files
    exclude := if other.exclude.isSome then other.exclude else self.exclude
    types := if other.types.isSome then other.types else self.types
    types_or := if other.types_or.isSome then other.types_or else self.types_or
    exclude_types :=
      if other.exclude_types.isSome then other.exclude_types else self.exclude_types
    additional_dependencies :=
      if other.additional_dependencies.isSome then
        other.additional_dependencies
      else self.additional_dependencies
    args := if other.args.isSome then other.args else self.args
    always_run := if other.always_run.isSome then other.always_run else self.always_run
    fail_fast := if other.fail_fast.isSome then other.fail_fast else self.fail_fast
    pass_filenames :=
      if other.pass_filenames.isSome then other.pass_filenames else self.pass_filenames
    description := if other.description.isSome then other.description else self.description
    language_version :=
      if other.language_version.isSome then other.language_version else self.language_version
    log_file := if other.log_file.isSome then other.log_file else self.log_file
    require_serial :=
      if other.require_serial.isSome then other.require_serial else self.require_serial
    priority := if other.priority.isSome then other.priority else self.priority
    stages := if other.stages.isSome then other.stages else self.stages
    verbose := if other.verbose.isSome then other.verbose else self.verbose
    minimum_prek_version :=
      if other.minimum_prek_version.isSome then
        other.minimum_prek_version
      else self.minimum_prek_version
    -- Merge environment variables.
    env :=
      match other.env with
      | some otherEnv =>
          match self.env with
          | some selfEnv => some (mapExtend selfEnv otherEnv)
          | none => some otherEnv
      | none => self.env }

/-- Manifest hook definition (config.rs `struct ManifestHook`). -/
structure ManifestHook where
  id : String
  name : String
  entry : String
  language : Language
  options : HookOptions

/-- Remote hook in a project config (config.rs `struct RemoteHook`): all
manifest-hook keys valid but optional. -/
structure RemoteHook where
  id : String
  name : Option String := none
  entry : Option String := none
  language : Option Language := none
  options : HookOptions := {}

/-- Deserialization of a meta hook (config.rs `impl Deserialize for MetaHook`),
after the generic `RemoteHook` shape has been parsed.  `fromId` stands for
`MetaHook::from_id`, whose closed id table lives outside the sources under
verification; it yields the predefined base hook for a known id and `none`
otherwise. -/
def deserializeMetaHook (fromId : String → Option ManifestHook) (h : RemoteHook) :
    Except String ManifestHook :=
  match fromId h.id with
  | none => .error "unknown meta hook id"
  | some metaHook =>
      if (h.language.map (fun l => decide (l ≠ Language.system))).getD false then
        .error "language must be system for meta hooks"
      else if h.entry.isSome then
        .error "entry is not allowed for meta hooks"
      else
        .ok { metaHook with
              name := h.name.getD metaHook.name
              options := metaHook.options.update h.options }

/-- Deserialization of a builtin hook (config.rs `impl Deserialize for
BuiltinHook`); same validation sequence as for meta hooks, against the
builtin id table `BuiltinHook::from_id`. -/
def deserializeBuiltinHook (fromId : String → Option ManifestHook) (h : RemoteHook) :
    Except String ManifestHook :=
  match fromId h.id with
  | none => .error "unknown builtin hook id"
  | some builtinHook =>
      if (h.language.map (fun l => decide (l ≠ Language.system))).getD false then
        .error "language must be system for builtin hooks"
      else if h.entry.isSome then
        .error "entry is not allowed for builtin hooks"
      else
        .ok { builtinHook with
              name := h.name.getD builtinHook.name
              options := builtinHook.options.update h.options }

/-- Repo variants (hook.rs `enum Repo`).  The clone path of a remote repo is
a string; hook lists are carried as in the source. -/
inductive Repo where
  | remote (path : String) (url : String) (rev : String) (hooks : List ManifestHook)
  | localRepo (hooks : List ManifestHook)
  | metaRepo (hooks : List ManifestHook)
  | builtinRepo (hooks : List ManifestHook)

/-- Display for Repo (hook.rs): `"{url}@{rev}"` for remote, else the
variant keyword. -/
def Repo.display : Repo → String
  | .remote _ url rev _ => url ++ "@" ++ rev
  | .localRepo _ => "local"
  | .metaRepo _ => "meta"
  | .builtinRepo _ => "builtin"

/-- Semantic version (the `semver::Version` triple; build/pre-release tags
are never produced by the toolchain resolution modelled here). -/
structure SemVer where
  major : Nat
  minor : Nat
  patch : Nat
deriving DecidableEq

/-- Ordering on semantic versions, lexicographic on (major, minor, patch). -/
def SemVer.le (a b : SemVer) : Bool :=
  (a.major < b.major) ||
    (a.major = b.major &&
      ((a.minor < b.minor) || (a.minor = b.minor && a.patch ≤ b.patch)))

/-- Modelled from the spec: `LanguageRequest` (languages/version.rs, not
among the sources under verification).  Spec 4.5: "Parsing
`language_version` into a `LanguageRequest` (variants: default, system,
specific semver, range)". -/
inductive LanguageRequest where
  | defaultReq
  | systemReq
  | specific (version : SemVer)
  | range (lo hi : SemVer)

/-- Modelled from the spec: satisfaction of a language-version request by a
recorded language version (`LanguageRequest::satisfied_by`, languages/
version.rs, not among the sources under verification).  `default` and
`system` accept any recorded version; a specific version must match
exactly; a range is inclusive. -/
def LanguageRequest.satisfiedByVersion : LanguageRequest → SemVer → Bool
  | .defaultReq, _ => true
  | .systemReq, _ => true
  | .specific v, w => v = w
  | .range lo hi, w => lo.le w && w.le hi

/-- Parsed entry of a hook (hook.rs `struct Entry`). -/
structure Entry where
  hook : String
  entry : String

/-- Stage set of a resolved hook (hook.rs `enum Stages`). -/
inductive Stages where
  | all
  | someOf (stages : Finset Stage)

/-- Stages::contains (hook.rs): `All` contains every stage. -/
def Stages.contains : Stages → Stage → Bool
  | .all, _ => true
  | .someOf stages, stage => stage ∈ stages

/-- Resolved hook (hook.rs `struct Hook`).  The `project` back-reference and
the `dependencies: OnceLock` memo cell are omitted: the former is unused by
the logic verified here and the latter only caches the pure computation
`env_key_dependencies`, which is modelled directly. -/
structure Hook where
  repo : Repo
  idx : Nat
  id : String
  name : String
  entry : Entry
  language : Language
  alias_ : String
  files : Option String
  exclude : Option String
  types : List String
  types_or : List String
  exclude_types : List String
  additional_dependencies : Finset String
  args : List String
  env : List (String × String)
  always_run : Bool
  fail_fast : Bool
  pass_filenames : Bool
  description : Option String
  language_request : LanguageRequest
  log_file : Option String
  require_serial : Bool
  stages : Stages
  verbose : Bool
  minimum_prek_version : Option String
  priority : Nat

/-- Hook::is_remote (hook.rs). -/
def Hook.is_remote (h : Hook) : Bool :=
  match h.repo with
  | .remote _ _ _ _ => true
  | _ => false

/-- Hook::env_key_dependencies (hook.rs): dependencies used to identify
whether an existing hook environment can be reused.  For remote hooks the
repo display string `url@rev` is an implicit extra dependency. -/
def Hook.env_key_dependencies (h : Hook) : Finset String :=
  if ¬ h.is_remote then
    h.additional_dependencies
  else
    insert h.repo.display h.additional_dependencies

/-- Install record persisted with each environment (hook.rs `struct
InstallInfo`).  `env_path`, `toolchain`, `extra` and the temp-dir handle do
not participate in the reuse predicate but are kept for fidelity. -/
structure InstallInfo where
  language : Language
  language_version : SemVer
  dependencies : Finset String
  env_path : String
  toolchain : String
  extra : List (String × String)

/-- Modelled from the spec: `satisfied_by` receives the whole install
record but consults its recorded language version (spec 3:
"`H.language_version_request.matches(E.language_version)`"). -/
def LanguageRequest.satisfied_by (req : LanguageRequest) (info : InstallInfo) : Bool :=
  req.satisfiedByVersion info.language_version

/-- InstallInfo::matches (hook.rs): the environment-reuse predicate. -/
def InstallInfo.matches (info : InstallInfo) (hook : Hook) : Bool :=
  decide (info.language = hook.language)
    && decide (info.dependencies = hook.env_key_dependencies)
    && hook.language_request.satisfied_by info


/-- Modelled from the spec: per-language capability flags.  The per-language
capability table (`Language::supports_install_env`, `supports_dependency`,
`supports_language_version` in languages/mod.rs) is not among the sources
under verification; spec 9 specifies the capability set, so the builder
logic is embedded parametrically in these three flags. -/
structure LanguageCaps where
  supports_install_env : Bool
  supports_dependency : Bool
  supports_language_version : Bool

/-- Hook builder (hook.rs `struct HookBuilder`); the `project` back-reference
is omitted (unused by the logic verified here). -/
structure HookBuilder where
  repo : Repo
  config : ManifestHook
  idx : Nat

/-- HookBuilder::check (hook.rs): the early-return validation sequence. -/
def HookBuilder.check (b : HookBuilder) (caps : LanguageCaps) : Except String Unit :=
  let additional_dependencies := b.config.options.additional_dependencies.getD []
  if additional_dependencies ≠ [] ∧ caps.supports_install_env = false then
    .error "the language does not install an environment"
  else if additional_dependencies ≠ [] ∧ caps.supports_dependency = false then
    .error "the language does not support installing dependencies for now"
  else if caps.supports_language_version = false ∧
      ((match b.config.options.language_version with
        | some language_version => language_version != "default"
        | none => false) = true) then
    .error "the language does not support toolchain installation for now"
  else
    .ok ()

/-- HookBuilder::fill_in_defaults (hook.rs): insert the default value into
every option that drives execution and is still `none`. -/
def HookBuilder.fill_in_defaults (b : HookBuilder) : HookBuilder :=
  { b with config := { b.config with options :=
    { b.config.options with
        language_version := some (b.config.options.language_version.getD "")
        alias_ := some (b.config.options.alias_.getD "")
        args := some (b.config.options.args.getD [])
        env := some (b.config.options.env.getD [])
        types := some (b.config.options.types.getD ["file"])
        types_or := some (b.config.options.types_or.getD [])
        exclude_types := some (b.config.options.exclude_types.getD [])
        always_run := some (b.config.options.always_run.getD false)
        fail_fast := some (b.config.options.fail_fast.getD false)
        pass_filenames := some (b.config.options.pass_filenames.getD true)
        require_serial := some (b.config.options.require_serial.getD false)
        verbose := some (b.config.options.verbose.getD false)
        additional_dependencies :=
          some (b.config.options.additional_dependencies.getD []) } } }

/-- Final record construction of HookBuilder::build (hook.rs), applied to the
builder after `fill_in_defaults` and to the parsed language request.  The
`expect` calls of the source are `getD` here: after `fill_in_defaults` every
consulted option is `some`. -/
def HookBuilder.finish (b : HookBuilder) (language_request : LanguageRequest) : Hook :=
  let options := b.config.options
  { repo := b.repo
    idx := b.idx
    id := b.config.id
    name := b.config.name
    entry := Entry.mk b.config.id b.config.entry
    language := b.config.language
    alias_ := options.alias_.getD ""
    files := options.files
    exclude := options.exclude
    types := options.types.getD []
    types_or := options.types_or.getD []
    exclude_types := options.exclude_types.getD []
    additional_dependencies := (options.additional_dependencies.getD []).toFinset
    args := options.args.getD []
    env := options.env.getD []
    always_run := options.always_run.getD false
    fail_fast := options.fail_fast.getD false
    pass_filenames := options.pass_filenames.getD true
    description := options.description
    language_request := language_request
    log_file := options.log_file
    require_serial := options.require_serial.getD false
    stages :=
      match options.stages with
      | some stages =>
          let stages := stages.toFinset
          if stages = ∅ ∨ stages.card = Stage.valueVariants.length then
            Stages.all
          else
            Stages.someOf stages
      | none => Stages.all
    verbose := options.verbose.getD false
    minimum_prek_version := options.minimum_prek_version
    priority := options.priority.getD b.idx }

/-- HookBuilder::build (hook.rs).  `parse` stands for
`LanguageRequest::parse` (languages/version.rs, not among the sources under
verification).  The trailing `extract_metadata_from_entry` step is I/O
(best-effort read of the entry script, spec 4.5 step 7) and is not part of
this pure model. -/
def HookBuilder.build (parse : Language → String → Except String LanguageRequest)
    (caps : LanguageCaps) (b : HookBuilder) : Except String Hook := do
  let _ ← b.check caps
  let bf := b.fill_in_defaults
  let language_version := bf.config.options.language_version.getD ""
  let language_request ← parse bf.config.language language_version
  pure (bf.finish language_request)

/-- Lookup into an extended map: the overriding entries win on key
collisions and entries only in the base map are preserved. -/
theorem lookup_mapExtend (se oe : List (String × String)) (k : String) :
    (mapExtend se oe).lookup k = ((oe.lookup k).or (se.lookup k)) := by
  induction oe with
  | nil => simp [mapExtend]
  | cons a t ih =>
      obtain ⟨k1, v1⟩ := a
      have hstep : mapExtend se ((k1, v1) :: t) = (k1, v1) :: mapExtend se t := rfl
      rw [hstep]
      cases hk : (k == k1) <;> simp [List.lookup, hk, ih]

/-- Replacement-if-present equals `Option.or`. -/
theorem if_isSome_or {α : Type} (a b : Option α) : (if a.isSome then a else b) = a.or b := by
  cases a <;> rfl

/-- Success condition of the meta-hook deserializer. -/
theorem deserializeMetaHook_isOk_iff (fromId : String → Option ManifestHook)
    (h : RemoteHook) :
    (deserializeMetaHook fromId h).isOk = true ↔
      ((fromId h.id).isSome ∧ h.entry = none ∧
        (h.language = none ∨ h.language = some Language.system)) := by
  rcases hid : fromId h.id with _ | base
  · simp [deserializeMetaHook, hid, Except.isOk, Except.toBool]
  · rcases hl : h.language with _ | lang
    · rcases he : h.entry with _ | e <;>
        simp [deserializeMetaHook, hid, hl, he, Except.isOk, Except.toBool]
    · by_cases hsys : lang = Language.system
      · subst hsys
        rcases he : h.entry with _ | e <;>
          simp [deserializeMetaHook, hid, hl, he, Except.isOk, Except.toBool]
      · rcases he : h.entry with _ | e <;>
          simp [deserializeMetaHook, hid, hl, he, Except.isOk, Except.toBool, hsys]

/-- Success condition of the builtin-hook deserializer. -/
theorem deserializeBuiltinHook_isOk_iff (fromId : String → Option ManifestHook)
    (h : RemoteHook) :
    (deserializeBuiltinHook fromId h).isOk = true ↔
      ((fromId h.id).isSome ∧ h.entry = none ∧
        (h.language = none ∨ h.language = some Language.system)) := by
  rcases hid : fromId h.id with _ | base
  · simp [deserializeBuiltinHook, hid, Except.isOk, Except.toBool]
  · rcases hl : h.language with _ | lang
    · rcases he : h.entry with _ | e <;>
        simp [deserializeBuiltinHook, hid, hl, he, Except.isOk, Except.toBool]
    · by_cases hsys : lang = Language.system
      · subst hsys
        rcases he : h.entry with _ | e <;>
          simp [deserializeBuiltinHook, hid, hl, he, Except.isOk, Except.toBool]
      · rcases he : h.entry with _ | e <;>
          simp [deserializeBuiltinHook, hid, hl, he, Except.isOk, Except.toBool, hsys]

/-- C1: for every environment install record and resolved hook, the reuse
check `InstallInfo::matches` returns true if and only if the record's
language equals the hook's language, the record's dependencies equal the
hook's `env_key_dependencies` set, and the hook's language-version request
is satisfied by the recorded language version. -/
theorem installInfo_matches_iff (info : InstallInfo) (hook : Hook) :
    info.matches hook = true ↔
      (info.language = hook.language ∧
       info.dependencies = hook.env_key_dependencies ∧
       hook.language_request.satisfiedByVersion info.language_version = true) := by
  simp [InstallInfo.matches, LanguageRequest.satisfied_by, Bool.and_eq_true,
    decide_eq_true_iff, and_assoc]

/-- C2: `env_key_dependencies` of a hook from a remote repo with URL `u` and
revision `r` is `additional_dependencies ∪ {"u@r"}`; for a local, meta, or
builtin repo it is `additional_dependencies` unchanged. -/
theorem env_key_dependencies_eq (h : Hook) :
    h.env_key_dependencies =
      match h.repo with
      | .remote _ url rev _ => h.additional_dependencies ∪ {url ++ "@" ++ rev}
      | .localRepo _ => h.additional_dependencies
      | .metaRepo _ => h.additional_dependencies
      | .builtinRepo _ => h.additional_dependencies := by
  rcases hr : h.repo with ⟨path, url, rev, hooks⟩ | hooks | hooks | hooks <;>
    simp [Hook.env_key_dependencies, Hook.is_remote, hr, Repo.display,
      Finset.insert_eq, Finset.union_comm]

/-- C8: deserializing a meta or builtin hook fails exactly when the id is
unknown to the closed id table, or a language other than `system` is given,
or an entry is given; with a known id, no entry, and language absent or
`system`, it succeeds. -/
theorem deserialize_meta_builtin_ok_iff (fromId : String → Option ManifestHook)
    (h : RemoteHook) :
    ((deserializeMetaHook fromId h).isOk = true ↔
      ((fromId h.id).isSome ∧ h.entry = none ∧
        (h.language = none ∨ h.language = some Language.system)))
  ∧ ((deserializeBuiltinHook fromId h).isOk = true ↔
      ((fromId h.id).isSome ∧ h.entry = none ∧
        (h.language = none ∨ h.language = some Language.system))) :=
  ⟨deserializeMetaHook_isOk_iff fromId h, deserializeBuiltinHook_isOk_iff fromId h⟩

/-- C10: applying a per-project override to hook options merges `env` (the
override's value wins on key collisions, keys only in the base are kept)
and wholly replaces every other option field that is present in the
override. -/
theorem hookOptions_update_spec (s o : HookOptions) :
    (s.update o).alias_ = o.alias_.or s.alias_
  ∧ (s.update o).files = o.files.or s.files
  ∧ (s.update o).exclude = o.exclude.or s.exclude
  ∧ (s.update o).types = o.types.or s.types
  ∧ (s.update o).types_or = o.types_or.or s.types_or
  ∧ (s.update o).exclude_types = o.exclude_types.or s.exclude_types
  ∧ (s.update o).additional_dependencies =
      o.additional_dependencies.or s.additional_dependencies
  ∧ (s.update o).args = o.args.or s.args
  ∧ (s.update o).always_run = o.always_run.or s.always_run
  ∧ (s.update o).fail_fast = o.fail_fast.or s.fail_fast
  ∧ (s.update o).pass_filenames = o.pass_filenames.or s.pass_filenames
  ∧ (s.update o).description = o.description.or s.description
  ∧ (s.update o).language_version = o.language_version.or s.language_version
  ∧ (s.update o).log_file = o.log_file.or s.log_file
  ∧ (s.update o).require_serial = o.require_serial.or s.require_serial
  ∧ (s.update o).priority = o.priority.or s.priority
  ∧ (s.update o).stages = o.stages.or s.stages
  ∧ (s.update o).verbose = o.verbose.or s.verbose
  ∧ (s.update o).minimum_prek_version = o.minimum_prek_version.or s.minimum_prek_version
  ∧ (∀ k : String,
      (s.update o).env.map (fun m => m.lookup k) =
        match o.env, s.env with
        | none, _ => s.env.map (fun m => m.lookup k)
        | some oe, none => some (oe.lookup k)
        | some oe, some se => some ((oe.lookup k).or (se.lookup k))) := by
  refine ⟨?_, ?_, ?_, ?_, ?_, ?_, ?_, ?_, ?_, ?_, ?_, ?_, ?_, ?_, ?_, ?_, ?_, ?_, ?_, ?_⟩
  all_goals try (simp [HookOptions.update, if_isSome_or]; done)
  intro k
  rcases hoe : o.env with _ | oe <;> rcases hse : s.env with _ | se <;>
    simp [HookOptions.update, hoe, hse, lookup_mapExtend]

/-- Success analysis of HookBuilder::build: a built hook is the final record
construction applied to the defaults-filled builder and some parsed
language request. -/
theorem build_ok_shape (parse : Language → String → Except String LanguageRequest)
    (caps : LanguageCaps) (b : HookBuilder) (h : Hook)
    (hb : HookBuilder.build parse caps b = .ok h) :
    ∃ language_request, h = b.fill_in_defaults.finish language_request := by
  rcases hc : b.check caps with e | u
  · simp [HookBuilder.build, hc, Except.bind, bind] at hb
  · rcases hp : parse b.fill_in_defaults.config.language
        (b.fill_in_defaults.config.options.language_version.getD "") with e | lr
    · simp [HookBuilder.build, hc, hp, Except.bind, bind] at hb
    · simp [HookBuilder.build, hc, hp, Except.bind, bind, pure, Except.pure] at hb
      exact ⟨lr, hb.symm⟩

/-- C6: HookBuilder::check succeeds exactly when `additional_dependencies`
is empty or the language supports both environment installation and
dependencies, and the declared `language_version` is absent or `"default"`
or the language supports toolchain installation; every violation is an
error. -/
theorem hookBuilder_check_isOk_iff (caps : LanguageCaps) (b : HookBuilder) :
    (b.check caps).isOk = true ↔
      ((b.config.options.additional_dependencies.getD [] = [] ∨
        (caps.supports_install_env = true ∧ caps.supports_dependency = true)) ∧
       (caps.supports_language_version = true ∨
        (match b.config.options.language_version with
         | some v => v = "default"
         | none => True))) := by
  rcases hlv : b.config.options.language_version with _ | v <;>
    rcases hie : caps.supports_install_env <;>
    rcases hdep : caps.supports_dependency <;>
    rcases hslv : caps.supports_language_version <;>
    by_cases hd : b.config.options.additional_dependencies.getD [] = [] <;>
      (try by_cases hv : v = "default") <;>
      first
      | simp [HookBuilder.check, hlv, hie, hdep, hslv, hd, hv, Except.isOk, Except.toBool]
      | simp [HookBuilder.check, hlv, hie, hdep, hslv, hd, Except.isOk, Except.toBool]

/-- C7: the priority of a built hook is the configured priority option when
set, and otherwise the hook's ordinal index in its project configuration. -/
theorem build_priority (parse : Language → String → Except String LanguageRequest)
    (caps : LanguageCaps) (b : HookBuilder) (h : Hook)
    (hb : HookBuilder.build parse caps b = .ok h) :
    h.priority =
      match b.config.options.priority with
      | some p => p
      | none => b.idx := by
  obtain ⟨lr, rfl⟩ := build_ok_shape parse caps b h hb
  rcases hpr : b.config.options.priority with _ | p <;>
    simp [HookBuilder.finish, HookBuilder.fill_in_defaults, hpr, Option.getD]

/-- Cardinality of a list's stage set is full exactly when every stage is
listed. -/
theorem stage_toFinset_card_full_iff (l : List Stage) :
    l.toFinset.card = Stage.valueVariants.length ↔ ∀ st : Stage, st ∈ l := by
  have hcard : Stage.valueVariants.length = Fintype.card Stage := by decide
  rw [hcard, Finset.card_eq_iff_eq_univ, Finset.eq_univ_iff_forall]
  simp [List.mem_toFinset]

/-- C9: if a hook's configured stages list is empty or contains every stage
variant, the built hook's stage set normalizes to `All`, so `contains` holds
for every stage; otherwise the built hook contains exactly the listed
stages. -/
theorem build_stages (parse : Language → String → Except String LanguageRequest)
    (caps : LanguageCaps) (b : HookBuilder) (h : Hook) (l : List Stage)
    (hst : b.config.options.stages = some l)
    (hb : HookBuilder.build parse caps b = .ok h) :
    ((l = [] ∨ ∀ st : Stage, st ∈ l) → ∀ st : Stage, h.stages.contains st = true)
  ∧ ((l ≠ [] ∧ ¬ (∀ st : Stage, st ∈ l)) →
      ∀ st : Stage, (h.stages.contains st = true ↔ st ∈ l)) := by
  obtain ⟨lr, rfl⟩ := build_ok_shape parse caps b h hb
  have hstages :
      (b.fill_in_defaults.finish lr).stages =
        (if l.toFinset = ∅ ∨ l.toFinset.card = Stage.valueVariants.length then
          Stages.all
        else Stages.someOf l.toFinset) := by
    simp [HookBuilder.finish, HookBuilder.fill_in_defaults, hst]
  constructor
  · rintro (hnil | hall) st
    · rw [hstages]
      have : l.toFinset = ∅ := by simp [hnil]
      simp [this, Stages.contains]
    · rw [hstages]
      have : l.toFinset.card = Stage.valueVariants.length :=
        (stage_toFinset_card_full_iff l).mpr hall
      simp [this, Stages.contains]
  · rintro ⟨hne, hnall⟩ st
    rw [hstages]
    have h1 : ¬ l.toFinset = ∅ := by
      simp only [List.toFinset_eq_empty_iff]
      exact hne
    have h2 : ¬ l.toFinset.card = Stage.valueVariants.length := by
      intro hc
      exact hnall ((stage_toFinset_card_full_iff l).mp hc)
    simp [h1, h2, Stages.contains, List.mem_toFinset]

/-- Sample parse function for witnesses: always the default request. -/
def sampleParse : Language → String → Except String LanguageRequest :=
  fun _ _ => .ok LanguageRequest.defaultReq

/-- Sample capability flags for witnesses: everything supported. -/
def sampleCaps : LanguageCaps :=
  { supports_install_env := true
    supports_dependency := true
    supports_language_version := true }

/-- Sample builder for witnesses: a local hook with an explicit priority and
a single configured stage. -/
def sampleBuilder : HookBuilder :=
  { repo := .localRepo []
    config :=
      { id := "sample-id"
        name := "sample-name"
        entry := "sample-entry"
        language := Language.system
        options := { priority := some 7, stages := some [Stage.preCommit] } }
    idx := 3 }

/-- Witness for C7: the sample build succeeds and its priority is the
configured 7, not the ordinal 3. -/
theorem build_priority_witness :
    ∃ h : Hook, HookBuilder.build sampleParse sampleCaps sampleBuilder = .ok h ∧
      h.priority = 7 := by
  have hb : HookBuilder.build sampleParse sampleCaps sampleBuilder =
      .ok (sampleBuilder.fill_in_defaults.finish LanguageRequest.defaultReq) := rfl
  refine ⟨_, hb, ?_⟩
  have := build_priority sampleParse sampleCaps sampleBuilder _ hb
  simpa [sampleBuilder] using this

/-- Witness for C9: the sample build succeeds; its configured stage list
`[pre-commit]` is neither empty nor exhaustive, and the built hook contains
`pre-commit` but not `manual`. -/
theorem build_stages_witness :
    ∃ h : Hook, HookBuilder.build sampleParse sampleCaps sampleBuilder = .ok h ∧
      h.stages.contains Stage.preCommit = true ∧ h.stages.contains Stage.manual = false := by
  have hb : HookBuilder.build sampleParse sampleCaps sampleBuilder =
      .ok (sampleBuilder.fill_in_defaults.finish LanguageRequest.defaultReq) := rfl
  have hst : sampleBuilder.config.options.stages = some [Stage.preCommit] := rfl
  have hmain := (build_stages sampleParse sampleCaps sampleBuilder _ [Stage.preCommit]
      hst hb).2 (by refine ⟨by simp, ?_⟩; decide)
  refine ⟨_, hb, ?_, ?_⟩
  · exact (hmain Stage.preCommit).mpr (by simp)
  · have := hmain Stage.manual
    simp only [List.mem_singleton] at this
    rcases hc : (sampleBuilder.fill_in_defaults.finish LanguageRequest.defaultReq).stages.contains
        Stage.manual with _ | _
    · rfl
    · exact absurd (this.mp hc) (by decide)

/-- Config file name constants (prek_consts). -/
def PREK_TOML : String := "prek.toml"

/-- Config file name constants (prek_consts). -/
def PRE_COMMIT_CONFIG_YAML : String := ".pre-commit-config.yaml"

/-- Config file name constants (prek_consts). -/
def PRE_COMMIT_CONFIG_YML : String := ".pre-commit-config.yml"

/-- Duration between two system clock readings, at the nanosecond precision
of `std::time::Duration`. -/
structure Duration where
  secs : Nat
  nanos : Nat
deriving DecidableEq

/-- Duration::as_secs: whole seconds, truncating the fractional part. -/
def Duration.as_secs (d : Duration) : Nat :=
  d.secs

/-- Duration is at most one hour, at full precision. -/
def Duration.leOneHour (d : Duration) : Bool :=
  d.secs < 3600 || (d.secs = 3600 && d.nanos = 0)

/-- File metadata consulted by the cache validity check (mtime, size). -/
structure FsMeta where
  modified : Nat
  size : Nat
deriving DecidableEq

/-- Cache entry for a project configuration file (workspace.rs `struct
CachedConfigFile`). -/
structure CachedConfigFile where
  path : String
  modified : Nat
  size : Nat
deriving DecidableEq

/-- Workspace discovery cache (workspace.rs `struct WorkspaceCache`).  The
`created_at` timestamp enters the model through the `elapsed` argument of
`is_valid`: `created_at.elapsed()` succeeds with a `Duration` or fails when
the clock went backwards. -/
structure WorkspaceCache where
  version : Nat
  workspace_root : String
  config_files : List CachedConfigFile
deriving DecidableEq

/-- Maximum cache age in seconds before forcing rediscovery (1 hour). -/
def MAX_CACHE_AGE : Nat := 60 * 60

/-- WorkspaceCache::is_valid (workspace.rs).  `elapsed` is the result of
`created_at.elapsed()` (`none` when the clock went backwards, in which case
the age check is skipped); `stat` models `fs::metadata` on the current file
system and `pathExists` models `Path::exists`. -/
def WorkspaceCache.is_valid (cache : WorkspaceCache) (elapsed : Option Duration)
    (stat : String → Option FsMeta) (pathExists : String → Bool) : Bool :=
  -- Check cache age - invalidate if older than MAX_CACHE_AGE.
  if (match elapsed with
      | some d => decide (d.as_secs > MAX_CACHE_AGE)
      | none => false) then
    false
  -- Check if all config files still exist and have not been modified.
  else if cache.config_files.any (fun cached_file =>
      match stat cached_file.path with
      | some metadata =>
          metadata.modified != cached_file.modified || metadata.size != cached_file.size
      | none => true) then
    false
  -- Check if the workspace root still exists.
  else if !pathExists cache.workspace_root then
    false
  else
    true

/-- Validity predicate exactly as the specification words it: elapsed time
at most one hour, workspace root exists, and every cached config file still
exists with its recorded modification time and size. -/
def cacheValidSpec (cache : WorkspaceCache) (elapsed : Duration)
    (stat : String → Option FsMeta) (pathExists : String → Bool) : Prop :=
  elapsed.leOneHour = true ∧ pathExists cache.workspace_root = true ∧
    ∀ f ∈ cache.config_files, stat f.path = some ⟨f.modified, f.size⟩

/-- Counterexample to C3 as stated: a cache aged 3600.5 seconds (strictly
more than one hour) is still accepted, because the code compares whole
seconds (`as_secs`) with the limit.  The claimed equivalence fails at this
input. -/
theorem cacheValid_claim_counterexample :
    ¬ (WorkspaceCache.is_valid ⟨1, "root", []⟩ (some ⟨3600, 500000000⟩)
          (fun _ => none) (fun _ => true) = true ↔
        cacheValidSpec ⟨1, "root", []⟩ ⟨3600, 500000000⟩
          (fun _ => none) (fun _ => true)) := by
  intro hiff
  have hv : WorkspaceCache.is_valid ⟨1, "root", []⟩ (some ⟨3600, 500000000⟩)
      (fun _ => none) (fun _ => true) = true := by rfl
  have hs := hiff.mp hv
  have : (Duration.leOneHour ⟨3600, 500000000⟩) = false := by rfl
  rw [hs.1] at this
  cases this

/-- C3 (amended): a persisted workspace cache is accepted as valid if and
only if the elapsed time since `created_at`, truncated to whole seconds, is
at most 3600 seconds, the workspace root still exists, and every cached
config file still exists with modification time and size equal to the
cached values.  (When the clock went backwards and no elapsed duration is
available, the age check is skipped.) -/
theorem cacheValid_iff (cache : WorkspaceCache) (d : Duration)
    (stat : String → Option FsMeta) (pathExists : String → Bool) :
    cache.is_valid (some d) stat pathExists = true ↔
      (d.as_secs ≤ MAX_CACHE_AGE ∧ pathExists cache.workspace_root = true ∧
       ∀ f ∈ cache.config_files, stat f.path = some ⟨f.modified, f.size⟩) := by
  unfold WorkspaceCache.is_valid
  split_ifs with h1 h2 h3
  · have h1' : decide (d.as_secs > MAX_CACHE_AGE) = true := h1
    simp only [decide_eq_true_eq] at h1'
    simp only [false_iff]
    rintro ⟨hle, -, -⟩
    omega
  · simp only [false_iff]
    rintro ⟨-, -, hall⟩
    rcases List.any_eq_true.mp h2 with ⟨f, hf, hpred⟩
    rw [hall f hf] at hpred
    simp at hpred
  · simp only [false_iff]
    rintro ⟨-, hroot, -⟩
    rw [hroot] at h3
    simp at h3
  · simp only [true_iff]
    have h1' : ¬ decide (d.as_secs > MAX_CACHE_AGE) = true := h1
    simp only [decide_eq_true_eq, Nat.not_lt] at h1'
    refine ⟨h1', ?_, ?_⟩
    · rcases hroot : pathExists cache.workspace_root with _ | _
      · exact absurd (by simp [hroot]) h3
      · rfl
    · intro f hf
      rw [List.any_eq_true] at h2
      push_neg at h2
      have hpred := h2 f hf
      rcases hstat : stat f.path with _ | m
      · rw [hstat] at hpred
        simp at hpred
      · rw [hstat] at hpred
        simp only [Bool.or_eq_true, bne_iff_ne, ne_eq, not_or, not_not] at hpred
        rcases m with ⟨mm, ms⟩
        simp_all

namespace Project

/-- Project::find_all_configs (workspace.rs): the config file names present
in a directory, probed in the fixed order `prek.toml`,
`.pre-commit-config.yaml`, `.pre-commit-config.yml`.  The directory is
modelled by the list of file names it contains. -/
def find_all_configs (filesInDir : List String) : List String :=
  [PREK_TOML, PRE_COMMIT_CONFIG_YAML, PRE_COMMIT_CONFIG_YML].filter
    (fun name => name ∈ filesInDir)

/-- Project::from_directory (workspace.rs): select the first config found;
when more than one is present, warn naming all found config files.  The
result is the selected config name together with the names carried by the
warning (empty when no warning is emitted); the subsequent
`from_config_file` load is outside this model. -/
def from_directory (filesInDir : List String) : Except String (String × List String) :=
  match find_all_configs filesInDir with
  | [] => .error "MissingConfigFile"
  | selected :: rest =>
      .ok (selected, if rest.isEmpty then [] else selected :: rest)

end Project

/-- C5: in a directory containing more than one of the config files, project
loading selects the first present in the fixed order `prek.toml`,
`.pre-commit-config.yaml`, `.pre-commit-config.yml`, and the emitted
warning names every other, non-selected config file. -/
theorem from_directory_ambiguity (filesInDir : List String)
    (hmulti : 1 < (Project.find_all_configs filesInDir).length) :
    ∃ selected warning,
      Project.from_directory filesInDir = .ok (selected, warning) ∧
      (Project.find_all_configs filesInDir).head? = some selected ∧
      ∀ name ∈ Project.find_all_configs filesInDir, name ≠ selected → name ∈ warning := by
  rcases hfc : Project.find_all_configs filesInDir with _ | ⟨sel, rest⟩
  · rw [hfc] at hmulti
    simp at hmulti
  · have hrest : rest.isEmpty = false := by
      rw [hfc] at hmulti
      rcases rest with _ | ⟨r, rs⟩
      · simp at hmulti
      · rfl
    refine ⟨sel, sel :: rest, ?_, by simp, ?_⟩
    · unfold Project.from_directory
      rw [hfc]
      simp [hrest]
    · intro name hn _
      exact hn

/-- Witness for C5: with both `prek.toml` and `.pre-commit-config.yml`
present, `prek.toml` is selected and the other file is named in the
warning. -/
theorem from_directory_ambiguity_witness :
    1 < (Project.find_all_configs [".pre-commit-config.yml", "prek.toml"]).length ∧
    ∃ selected warning,
      Project.from_directory [".pre-commit-config.yml", "prek.toml"] =
        .ok (selected, warning) ∧
      (Project.find_all_configs [".pre-commit-config.yml", "prek.toml"]).head? =
        some selected ∧
      ∀ name ∈ Project.find_all_configs [".pre-commit-config.yml", "prek.toml"],
        name ≠ selected → name ∈ warning :=
  ⟨by decide, from_directory_ambiguity [".pre-commit-config.yml", "prek.toml"] (by decide)⟩

/-- Discovered project (workspace.rs `struct Project`), restricted to the
fields consulted by `sort_and_index_projects`: the relative path from the
workspace root (as its list of components, matching `PathBuf` component-wise
comparison) and the assigned dense index.  `config_path` stands in for the
remaining payload of the record. -/
structure Project where
  config_path : String
  relative_path : List String
  idx : Nat
deriving DecidableEq

/-- Project::depth (workspace.rs): the number of components of
`relative_path`. -/
def Project.depth (p : Project) : Nat :=
  p.relative_path.length

/-- Rust `Ord::cmp` on strings. -/
def strCmp (s t : String) : Ordering :=
  if s < t then .lt else if s = t then .eq else .gt

/-- Rust `Ord::cmp` on unsigned integers. -/
def natCmp (m n : Nat) : Ordering :=
  if m < n then .lt else if m = n then .eq else .gt

/-- Rust `Ord::cmp` on paths: lexicographic comparison of the component
lists. -/
def pathCmp : List String → List String → Ordering
  | [], [] => .eq
  | [], _ :: _ => .lt
  | _ :: _, [] => .gt
  | a :: as, b :: bs => (strCmp a b).then (pathCmp as bs)

/-- Comparator of `Workspace::sort_and_index_projects` (workspace.rs):
descending depth first, ascending `relative_path` as tie break. -/
def projectCmp (a b : Project) : Ordering :=
  (natCmp b.depth a.depth).then (pathCmp a.relative_path b.relative_path)

/-- Non-strict order induced by the comparator, as used by a Rust
`sort_by`. -/
def projectLe (a b : Project) : Bool :=
  decide (projectCmp a b ≠ .gt)

/-- Workspace::sort_and_index_projects (workspace.rs): stable sort by the
comparator, then assign each project its position as dense index. -/
def sort_and_index_projects (projects : List Project) : List Project :=
  ((projects.mergeSort projectLe).enum).map fun ip => { ip.2 with idx := ip.1 }

theorem then_eq_gt (x y : Ordering) : x.then y = .gt ↔ x = .gt ∨ (x = .eq ∧ y = .gt) := by
  cases x <;> simp [Ordering.then]

theorem then_ne_gt (x y : Ordering) : x.then y ≠ .gt ↔ x = .lt ∨ (x = .eq ∧ y ≠ .gt) := by
  cases x <;> simp [Ordering.then]

theorem strCmp_eq_lt {s t : String} : strCmp s t = .lt ↔ s < t := by
  unfold strCmp
  split_ifs with h1 h2 <;> simp [h1]

theorem strCmp_eq_eq {s t : String} : strCmp s t = .eq ↔ s = t := by
  unfold strCmp
  split_ifs with h1 h2
  · exact iff_of_false (by simp) (ne_of_lt h1)
  · exact iff_of_true rfl h2
  · exact iff_of_false (by simp) h2

theorem strCmp_eq_gt {s t : String} : strCmp s t = .gt ↔ t < s := by
  unfold strCmp
  split_ifs with h1 h2
  · exact iff_of_false (by simp) (lt_asymm h1)
  · exact iff_of_false (by simp) (by rw [h2]; exact lt_irrefl t)
  · refine iff_of_true rfl ?_
    rcases lt_trichotomy s t with h | h | h
    · exact absurd h h1
    · exact absurd h h2
    · exact h

theorem natCmp_eq_lt {m n : Nat} : natCmp m n = .lt ↔ m < n := by
  unfold natCmp
  split_ifs with h1 h2 <;> simp [h1]

theorem natCmp_eq_eq {m n : Nat} : natCmp m n = .eq ↔ m = n := by
  unfold natCmp
  split_ifs with h1 h2 <;> simp_all
  omega

theorem natCmp_eq_gt {m n : Nat} : natCmp m n = .gt ↔ n < m := by
  unfold natCmp
  split_ifs with h1 h2 <;> simp <;> omega

theorem pathCmp_le_trans :
    ∀ a b c : List String, pathCmp a b ≠ .gt → pathCmp b c ≠ .gt → pathCmp a c ≠ .gt := by
  intro a
  induction a with
  | nil =>
      intro b c _ _
      cases c <;> simp [pathCmp]
  | cons x as ih =>
      intro b c h1 h2
      rcases b with _ | ⟨y, bs⟩
      · exact absurd rfl h1
      rcases c with _ | ⟨z, cs⟩
      · exact absurd rfl h2
      rw [show pathCmp (x :: as) (y :: bs) = (strCmp x y).then (pathCmp as bs) from rfl,
        then_ne_gt] at h1
      rw [show pathCmp (y :: bs) (z :: cs) = (strCmp y z).then (pathCmp bs cs) from rfl,
        then_ne_gt] at h2
      rw [show pathCmp (x :: as) (z :: cs) = (strCmp x z).then (pathCmp as cs) from rfl,
        then_ne_gt]
      rcases h1 with h1 | ⟨h1e, h1p⟩ <;> rcases h2 with h2 | ⟨h2e, h2p⟩
      · exact Or.inl (strCmp_eq_lt.mpr (lt_trans (strCmp_eq_lt.mp h1) (strCmp_eq_lt.mp h2)))
      · exact Or.inl (strCmp_eq_lt.mpr (strCmp_eq_eq.mp h2e ▸ strCmp_eq_lt.mp h1))
      · exact Or.inl (strCmp_eq_lt.mpr (strCmp_eq_eq.mp h1e ▸ strCmp_eq_lt.mp h2))
      · exact Or.inr ⟨strCmp_eq_eq.mpr ((strCmp_eq_eq.mp h1e).trans (strCmp_eq_eq.mp h2e)),
          ih bs cs h1p h2p⟩

theorem strCmp_swap (s t : String) : (strCmp s t).swap = strCmp t s := by
  rcases lt_trichotomy s t with h | h | h
  · rw [strCmp_eq_lt.mpr h, strCmp_eq_gt.mpr h]
    rfl
  · subst h
    rw [strCmp_eq_eq.mpr rfl]
    rfl
  · rw [strCmp_eq_gt.mpr h, strCmp_eq_lt.mpr h]
    rfl

theorem then_swap (x y : Ordering) : (x.then y).swap = x.swap.then y.swap := by
  cases x <;> rfl

theorem pathCmp_swap : ∀ a b : List String, (pathCmp a b).swap = pathCmp b a := by
  intro a
  induction a with
  | nil => intro b; cases b <;> rfl
  | cons x as ih =>
      intro b
      rcases b with _ | ⟨y, bs⟩
      · rfl
      · show ((strCmp x y).then (pathCmp as bs)).swap = (strCmp y x).then (pathCmp bs as)
        rw [then_swap, strCmp_swap, ih]

theorem projectLe_trans (a b c : Project) (h1 : projectLe a b = true)
    (h2 : projectLe b c = true) : projectLe a c = true := by
  rw [projectLe, decide_eq_true_iff] at h1 h2 ⊢
  rw [projectCmp, then_ne_gt] at h1 h2 ⊢
  rcases h1 with h1 | ⟨h1e, h1p⟩ <;> rcases h2 with h2 | ⟨h2e, h2p⟩
  · exact Or.inl (natCmp_eq_lt.mpr (lt_trans (natCmp_eq_lt.mp h2) (natCmp_eq_lt.mp h1)))
  · exact Or.inl (natCmp_eq_lt.mpr (by have := natCmp_eq_lt.mp h1; have := natCmp_eq_eq.mp h2e; omega))
  · exact Or.inl (natCmp_eq_lt.mpr (by have := natCmp_eq_lt.mp h2; have := natCmp_eq_eq.mp h1e; omega))
  · refine Or.inr ⟨natCmp_eq_eq.mpr (by have := natCmp_eq_eq.mp h1e; have := natCmp_eq_eq.mp h2e; omega), ?_⟩
    exact pathCmp_le_trans _ _ _ h1p h2p

theorem projectCmp_swap (a b : Project) : (projectCmp a b).swap = projectCmp b a := by
  rw [projectCmp, projectCmp, then_swap, pathCmp_swap]
  congr 1
  rcases lt_trichotomy a.depth b.depth with h | h | h
  · rw [natCmp_eq_gt.mpr h, natCmp_eq_lt.mpr h]
    rfl
  · rw [natCmp_eq_eq.mpr h.symm, natCmp_eq_eq.mpr h]
    rfl
  · rw [natCmp_eq_lt.mpr h, natCmp_eq_gt.mpr h]
    rfl

theorem projectLe_total (a b : Project) : (projectLe a b || projectLe b a) = true := by
  rcases hab : projectCmp a b with _ | _ | _
  · simp [projectLe, hab]
  · simp [projectLe, hab]
  · have : projectCmp b a = .lt := by
      rw [← projectCmp_swap, hab]
      rfl
    simp [projectLe, this]

theorem projectLe_spec (p q : Project) (h : projectLe p q = true) :
    q.depth ≤ p.depth ∧ (q.depth = p.depth → pathCmp p.relative_path q.relative_path ≠ .gt) := by
  rw [projectLe, decide_eq_true_iff, projectCmp, then_ne_gt] at h
  rcases h with h | ⟨he, hp⟩
  · have := natCmp_eq_lt.mp h
    exact ⟨le_of_lt this, fun hq => by omega⟩
  · have := natCmp_eq_eq.mp he
    exact ⟨le_of_eq this, fun _ => hp⟩

/-- C4: workspace discovery sorting produces the projects in non-increasing
depth order with ties at equal depth in ascending lexicographic
`relative_path` order, assigns each project the dense index equal to its
position in that order, and is a permutation of the input projects. -/
theorem sort_and_index_projects_spec (projects : List Project) :
    List.Pairwise (fun a b => b.depth ≤ a.depth ∧
        (b.depth = a.depth → pathCmp a.relative_path b.relative_path ≠ .gt))
      (sort_and_index_projects projects)
  ∧ (sort_and_index_projects projects).map Project.idx = List.range projects.length
  ∧ ((sort_and_index_projects projects).map fun p => (p.relative_path, p.config_path)).Perm
      (projects.map fun p => (p.relative_path, p.config_path)) := by
  have hsorted := @List.sorted_mergeSort Project projectLe projectLe_trans projectLe_total projects
  have hperm := List.mergeSort_perm projects projectLe
  refine ⟨?_, ?_, ?_⟩
  · rw [sort_and_index_projects, List.pairwise_map]
    have h1 : List.Pairwise (fun a b : Nat × Project => projectLe a.2 b.2 = true)
        (projects.mergeSort projectLe).enum := by
      have h0 := hsorted
      rw [← List.enum_map_snd (projects.mergeSort projectLe), List.pairwise_map] at h0
      exact h0
    refine h1.imp ?_
    intro a b hab
    exact projectLe_spec a.2 b.2 hab
  · rw [sort_and_index_projects, List.map_map]
    have hfun : (Project.idx ∘ fun ip : Nat × Project => { ip.2 with idx := ip.1 }) =
        Prod.fst := by
      funext ip
      rfl
    rw [hfun, List.enum_map_fst, hperm.length_eq]
  · rw [sort_and_index_projects, List.map_map]
    have hfun : ((fun p : Project => (p.relative_path, p.config_path)) ∘
        fun ip : Nat × Project => { ip.2 with idx := ip.1 }) =
        ((fun p : Project => (p.relative_path, p.config_path)) ∘ Prod.snd) := by
      funext ip
      rfl
    rw [hfun, ← List.map_map, List.enum_map_snd]
    exact hperm.map _

end Prek
